import Mathlib

/-!
Verification of the bit-utility core of `include/helpers.hpp` (Panda3DS).

Machine integers are modelled as `Nat` values below `2 ^ w` for an unsigned
type of bit width `w`, with wrapping written explicitly as `% 2 ^ w`.
C++ `int` values (for example rotate amounts and the intermediates of the
sign-extension helpers) are modelled as `Int`; the two's-complement bitwise
AND of an `int` is `Int.land`, and the arithmetic (sign-propagating) right
shift of an `int` is `Int.shiftRight` (`>>>`), which rounds toward negative
infinity.  C++20 signed left shift `a << b` is multiplication by `2 ^ b`
reduced to the signed 32-bit value with the same low 32 bits.
-/

namespace Helpers

/-- C++ `Helpers::ones<T, count>` for a type `T` of bit width `w`:
`count == 0` returns `0`, otherwise `~T(0) >> (bitsize - count)`,
where `~T(0) = 2 ^ w - 1`. -/
def ones (w count : Nat) : Nat :=
  if count = 0 then 0 else (2 ^ w - 1) >>> (w - count)

/-- C++ `Helpers::getBit<offset>(value)`: `(value >> offset) & T(1)`. -/
def getBit (offset value : Nat) : Nat :=
  (value >>> offset) &&& 1

/-- C++ `Helpers::getBits<offset, bits>(value)` on a type of bit width `w`:
`(value >> offset) & ones<T, bits>()`. -/
def getBits (w offset bits value : Nat) : Nat :=
  (value >>> offset) &&& ones w bits

/-- C++ `Helpers::isBitSet(value, bit)`: `(value >> bit) & 1`, converted to
`bool` (nonzero becomes `true`). -/
def isBitSet (value bit : Nat) : Bool :=
  ((value >>> bit) &&& 1) != 0

/-- Value of a C++ cast of an `int` to `u32`: reduction modulo `2 ^ 32`. -/
def toU32 (i : Int) : Nat :=
  (i % ((2 ^ 32 : Nat) : Int)).toNat

/-- Value of a C++ cast of an `int` to `u16`: reduction modulo `2 ^ 16`. -/
def toU16 (i : Int) : Nat :=
  (i % ((2 ^ 16 : Nat) : Int)).toNat

/-- The signed 32-bit value with the same low 32 bits as `i` (two's
complement).  This models both the C++ cast `(s32)value` and the value of a
C++20 signed 32-bit left-shift result. -/
def wrapS32 (i : Int) : Int :=
  if i % ((2 ^ 32 : Nat) : Int) < ((2 ^ 31 : Nat) : Int) then
    i % ((2 ^ 32 : Nat) : Int)
  else
    i % ((2 ^ 32 : Nat) : Int) - ((2 ^ 32 : Nat) : Int)

/-- The signed 16-bit value with the same low 16 bits as `i`: the C++ cast
`(s16)value`. -/
def wrapS16 (i : Int) : Int :=
  if i % ((2 ^ 16 : Nat) : Int) < ((2 ^ 15 : Nat) : Int) then
    i % ((2 ^ 16 : Nat) : Int)
  else
    i % ((2 ^ 16 : Nat) : Int) - ((2 ^ 16 : Nat) : Int)

/-- C++ `Helpers::signExtend32(value, startingSize)`:
`auto temp = (s32)value; auto bitsToShift = 32 - startingSize;
return (u32)(temp << bitsToShift >> bitsToShift);`.
The left shift wraps to a signed 32-bit value (C++20 semantics) and the
right shift is arithmetic. -/
def signExtend32 (value startingSize : Nat) : Nat :=
  let temp : Int := wrapS32 (value : Int)
  let bitsToShift : Nat := 32 - startingSize
  toU32 (wrapS32 (temp * ((2 ^ bitsToShift : Nat) : Int)) >>> bitsToShift)

/-- C++ `Helpers::signExtend16(value, startingSize)`:
`auto temp = (s16)value; auto bitsToShift = 16 - startingSize;
return (u16)(temp << bitsToShift >> bitsToShift);`.
Both shifts act after the C++ integral promotion of the `s16` operand to the
32-bit `int`, so the intermediate is a signed 32-bit value. -/
def signExtend16 (value startingSize : Nat) : Nat :=
  let temp : Int := wrapS16 (value : Int)
  let bitsToShift : Nat := 16 - startingSize
  toU16 (wrapS32 (temp * ((2 ^ bitsToShift : Nat) : Int)) >>> bitsToShift)

/-- C++ `Helpers::rotr<T>(value, bits)` on a type of bit width `w`:
`bits &= bitWidth - 1; return (value >> bits) | (value << (bitWidth - bits));`.
`bits` is a C++ `int`, so the AND with the unsigned `bitWidth - 1` is
two's-complement; the shifts and the result wrap modulo `2 ^ w`. -/
def rotr (w value : Nat) (bits : Int) : Nat :=
  ((value >>> (Int.land bits ((w - 1 : Nat) : Int)).toNat) |||
      (value <<< (w - (Int.land bits ((w - 1 : Nat) : Int)).toNat))) % 2 ^ w

/-- C++ `Helpers::rotl<T>(value, bits)`, the mirror image of `rotr`:
`bits &= bitWidth - 1; return (value << bits) | (value >> (bitWidth - bits));`. -/
def rotl (w value : Nat) (bits : Int) : Nat :=
  ((value <<< (Int.land bits ((w - 1 : Nat) : Int)).toNat) |||
      (value >>> (w - (Int.land bits ((w - 1 : Nat) : Int)).toNat))) % 2 ^ w

/-- Arguments passed to `f`, in order, by C++
`Helpers::static_for_impl<T, Begin>(f, integer_sequence<T, Is...>)`:
the fold expression `(f(integral_constant<T, Begin + Is>{}), ...)` invokes
`f` at `Begin + i` for each `i` of the sequence, left to right. -/
def static_for_impl (begin_ : Nat) (is : List Nat) : List Nat :=
  is.map fun i => begin_ + i

/-- Arguments passed to the callback, in order, by C++
`Helpers::static_for<T, Begin, End>(f)`, which expands to
`static_for_impl<T, Begin>(f, make_integer_sequence<T, End - Begin>{})`;
`make_integer_sequence<T, n>` is the sequence `0, 1, ..., n - 1`. -/
def static_for (begin_ end_ : Nat) : List Nat :=
  static_for_impl begin_ (List.range (end_ - begin_))

/-- C++ `Helpers::incBCDByte(value)`:
`((value & 0xf) == 0x9) ? value + 7 : value + 1` on a `u8` operand; the
`int` sum is converted back to `u8`, hence the `% 256`. -/
def incBCDByte (value : Nat) : Nat :=
  (if value &&& 0xf = 0x9 then value + 7 else value + 1) % 256

/-- C++ `Helpers::bit_cast<To, From>` restricted to integer types of one
common size `w`: `std::bit_cast` preserves the raw `w`-bit pattern, so on
bit patterns (naturals below `2 ^ w`) it is the identity. -/
def bit_cast (w from_ : Nat) : Nat :=
  from_ % 2 ^ w

/-- Number of one bits in the binary representation of a natural number. -/
def popCount (n : Nat) : Nat :=
  if h : n = 0 then 0 else n % 2 + popCount (n / 2)
decreasing_by exact Nat.div_lt_self (Nat.pos_of_ne_zero h) Nat.one_lt_two

/-- Decimal value encoded by a packed BCD byte: ten times the high nibble
plus the low nibble. -/
def decodeBCD (v : Nat) : Nat :=
  10 * (v / 16) + v % 16

/-- A byte is a valid packed BCD value when it is a byte and both nibbles
are decimal digits. -/
def isValidBCD (v : Nat) : Prop :=
  v < 256 ∧ v % 16 ≤ 9 ∧ v / 16 ≤ 9

instance (v : Nat) : Decidable (isValidBCD v) := by
  unfold isValidBCD
  exact inferInstance

/-- For `count ≤ w`, the mask built by `ones` is `2 ^ count - 1`. -/
theorem ones_eq (w count : Nat) (h : count ≤ w) : ones w count = 2 ^ count - 1 := by
  unfold ones
  by_cases h0 : count = 0
  · simp [h0]
  · rw [if_neg h0, Nat.shiftRight_eq_div_pow]
    have hA : 0 < 2 ^ (w - count) := Nat.two_pow_pos _
    have hB : 0 < 2 ^ count := Nat.two_pow_pos _
    have hAB : 2 ^ (w - count) * 2 ^ count = 2 ^ w := by
      rw [← pow_add]
      congr 1
      omega
    have hprod : 2 ^ (w - count) * (2 ^ count - 1) + 2 ^ (w - count) = 2 ^ (w - count) * 2 ^ count := by
      rw [← Nat.mul_succ]
      congr 1
      omega
    have hsplit : 2 ^ w - 1 = (2 ^ (w - count) - 1) + 2 ^ (w - count) * (2 ^ count - 1) := by
      omega
    rw [hsplit, Nat.add_mul_div_left _ _ hA, Nat.div_eq_of_lt (by omega)]
    omega

/-- `popCount` of a mask of `c` low one bits is `c`. -/
theorem popCount_two_pow_sub_one (c : Nat) : popCount (2 ^ c - 1) = c := by
  induction c with
  | zero =>
    unfold popCount
    simp
  | succ c ih =>
    have h1 : 2 ^ (c + 1) = 2 * 2 ^ c := by
      rw [pow_succ]
      ring
    have h2 : 0 < 2 ^ c := Nat.two_pow_pos c
    unfold popCount
    rw [dif_neg (by omega)]
    have h3 : (2 ^ (c + 1) - 1) % 2 = 1 := by omega
    have h4 : (2 ^ (c + 1) - 1) / 2 = 2 ^ c - 1 := by omega
    rw [h3, h4, ih]
    omega

/-- `ones` always yields a value of its result type. -/
theorem ones_lt (w count : Nat) : ones w count < 2 ^ w := by
  unfold ones
  have hw : 0 < 2 ^ w := Nat.two_pow_pos w
  split
  · exact hw
  · rw [Nat.shiftRight_eq_div_pow]
    have := Nat.div_le_self (2 ^ w - 1) (2 ^ (w - count))
    omega

/-- Claim C1: for `count ≤ w`, `ones<T, count>()` has exactly `count` one
bits, every bit at position `≥ count` is zero, and `ones<T, 0>() = 0`. -/
theorem ones_spec (w count : Nat) (h : count ≤ w) :
    popCount (ones w count) = count ∧
    (∀ i, count ≤ i → (ones w count).testBit i = false) ∧
    ones w 0 = 0 := by
  rw [ones_eq w count h]
  refine ⟨popCount_two_pow_sub_one count, fun i hi => ?_, by simp [ones]⟩
  rw [Nat.testBit_two_pow_sub_one]
  exact decide_eq_false (by omega)

/-- Witness for C1 at `w = 32`, `count = 5`. -/
theorem ones_spec_witness : 5 ≤ 32 ∧ popCount (ones 32 5) = 5 :=
  ⟨by decide, (ones_spec 32 5 (by decide)).1⟩

/-- Claim C2: for `offset + width ≤ w`, `getBits<offset, width>(value)` is
the right-aligned field `(value >> offset) & ((1 << width) - 1)`,
equivalently `(value >> offset) % 2 ^ width`. -/
theorem getBits_spec (w offset width value : Nat) (h : offset + width ≤ w) :
    getBits w offset width value = (value >>> offset) &&& ((1 <<< width) - 1) ∧
    getBits w offset width value = (value >>> offset) % 2 ^ width := by
  have hw : width ≤ w := by omega
  unfold getBits
  rw [ones_eq w width hw]
  constructor
  · rw [Nat.one_shiftLeft]
  · rw [Nat.and_pow_two_sub_one_eq_mod]

/-- Witness for C2 at `w = 32`, `offset = 4`, `width = 8`, `value = 0xABCD`. -/
theorem getBits_spec_witness :
    4 + 8 ≤ 32 ∧ getBits 32 4 8 0xABCD = (0xABCD >>> 4) &&& ((1 <<< 8) - 1) :=
  ⟨by decide, (getBits_spec 32 4 8 0xABCD (by decide)).1⟩

/-- Claim C6: `incBCDByte` adds 7 when the low nibble is 9 and adds 1
otherwise; in particular `incBCDByte 0x09 = 0x10`, `incBCDByte 0x19 = 0x20`
and `incBCDByte 0x00 = 0x01`. -/
theorem incBCDByte_spec (v : Nat) (hv : v < 256) :
    incBCDByte v = (if v % 16 = 9 then v + 7 else v + 1) % 256 ∧
    incBCDByte 0x09 = 0x10 ∧ incBCDByte 0x19 = 0x20 ∧ incBCDByte 0x00 = 0x01 := by
  refine ⟨?_, by decide, by decide, by decide⟩
  unfold incBCDByte
  have h : v &&& 0xf = v % 16 := by
    have h4 := Nat.and_pow_two_sub_one_eq_mod v 4
    norm_num at h4
    exact h4
  rw [h]

/-- Witness for C6 at `v = 0x09`. -/
theorem incBCDByte_spec_witness : (0x09 : Nat) < 256 ∧ incBCDByte 0x09 = 0x10 :=
  ⟨by decide, (incBCDByte_spec 0x09 (by decide)).2.1⟩

/-- Claim C10: on every valid BCD byte other than `0x99`, `incBCDByte`
yields a valid BCD byte that encodes the decimal successor; at `0x99`
validity is not preserved. -/
theorem incBCDByte_valid_spec (v : Nat) (hv : isValidBCD v) (h99 : v ≠ 0x99) :
    isValidBCD (incBCDByte v) ∧
    decodeBCD (incBCDByte v) = decodeBCD v + 1 ∧
    ¬ isValidBCD (incBCDByte 0x99) := by
  obtain ⟨h1, h2, h3⟩ := hv
  have h : v &&& 0xf = v % 16 := by
    have h4 := Nat.and_pow_two_sub_one_eq_mod v 4
    norm_num at h4
    exact h4
  refine ⟨?_, ?_, by decide⟩
  · unfold incBCDByte isValidBCD
    rw [h]
    split
    · refine ⟨?_, ?_, ?_⟩ <;> omega
    · refine ⟨?_, ?_, ?_⟩ <;> omega
  · unfold incBCDByte decodeBCD
    rw [h]
    split
    · omega
    · omega

/-- Witness for C10 at `v = 0x29`. -/
theorem incBCDByte_valid_spec_witness :
    isValidBCD 0x29 ∧ (0x29 : Nat) ≠ 0x99 ∧
    decodeBCD (incBCDByte 0x29) = decodeBCD 0x29 + 1 :=
  ⟨by decide, by decide, (incBCDByte_valid_spec 0x29 (by decide) (by decide)).2.1⟩

/-- Every C++ cast to `u32` lands in the `u32` range. -/
theorem toU32_lt (i : Int) : toU32 i < 2 ^ 32 := by
  unfold toU32
  have h1 : 0 ≤ i % ((2 ^ 32 : Nat) : Int) := Int.emod_nonneg i (by norm_num)
  have h2 : i % ((2 ^ 32 : Nat) : Int) < ((2 ^ 32 : Nat) : Int) :=
    Int.emod_lt_of_pos i (by norm_num)
  omega

/-- Every C++ cast to `u16` lands in the `u16` range. -/
theorem toU16_lt (i : Int) : toU16 i < 2 ^ 16 := by
  unfold toU16
  have h1 : 0 ≤ i % ((2 ^ 16 : Nat) : Int) := Int.emod_nonneg i (by norm_num)
  have h2 : i % ((2 ^ 16 : Nat) : Int) < ((2 ^ 16 : Nat) : Int) :=
    Int.emod_lt_of_pos i (by norm_num)
  omega

/-- Claim C9: every operation of the bit-utility core is total: on every
input, including inputs outside the documented precondition domain, it
yields a numeric result in the range of its result type (for `isBitSet`, a
boolean equal to the low bit of the shifted value; for `static_for`, the
full finite call sequence). -/
theorem helpers_total :
    (∀ w count, ones w count < 2 ^ w) ∧
    (∀ offset value, getBit offset value ≤ 1) ∧
    (∀ w offset bits value, getBits w offset bits value < 2 ^ w) ∧
    (∀ value bit, isBitSet value bit = decide ((value >>> bit) % 2 = 1)) ∧
    (∀ v s, signExtend32 v s < 2 ^ 32) ∧
    (∀ v s, signExtend16 v s < 2 ^ 16) ∧
    (∀ w x n, rotr w x n < 2 ^ w) ∧
    (∀ w x n, rotl w x n < 2 ^ w) ∧
    (∀ v, incBCDByte v < 256) ∧
    (∀ b e, (static_for b e).length = e - b) ∧
    (∀ w x, bit_cast w x < 2 ^ w) := by
  refine ⟨ones_lt, ?_, ?_, ?_, ?_, ?_, ?_, ?_, ?_, ?_, ?_⟩
  · intro offset value
    exact Nat.and_le_right
  · intro w offset bits value
    exact lt_of_le_of_lt Nat.and_le_right (ones_lt w bits)
  · intro value bit
    unfold isBitSet
    rw [Nat.and_one_is_mod]
    have h : (value >>> bit) % 2 = 0 ∨ (value >>> bit) % 2 = 1 := by omega
    rcases h with h | h <;> rw [h] <;> rfl
  · intro v s
    exact toU32_lt _
  · intro v s
    exact toU16_lt _
  · intro w x n
    exact Nat.mod_lt _ (Nat.two_pow_pos w)
  · intro w x n
    exact Nat.mod_lt _ (Nat.two_pow_pos w)
  · intro v
    exact Nat.mod_lt _ (by norm_num)
  · intro b e
    unfold static_for static_for_impl
    rw [List.length_map, List.length_range]
  · intro w x
    exact Nat.mod_lt _ (Nat.two_pow_pos w)

/-- `Int.land` on two natural-number operands is the natural-number AND. -/
theorem land_ofNat (m n : Nat) :
    Int.land ((m : Nat) : Int) ((n : Nat) : Int) = ((m &&& n : Nat) : Int) :=
  rfl

/-- `Int.land` of a negative operand with a natural number masks through
`Nat.ldiff` (two's complement). -/
theorem land_negSucc_ofNat (m n : Nat) :
    Int.land (Int.negSucc m) ((n : Nat) : Int) = ((Nat.ldiff n m : Nat) : Int) :=
  rfl

/-- The C++ reduction `bits & (2 ^ k - 1)` of an `int` rotate amount always
lands in `[0, 2 ^ k)`. -/
theorem land_mask_toNat_lt (i : Int) (k : Nat) :
    (Int.land i ((2 ^ k - 1 : Nat) : Int)).toNat < 2 ^ k := by
  cases i with
  | ofNat m =>
    have h := land_ofNat m (2 ^ k - 1)
    rw [show Int.ofNat m = ((m : Nat) : Int) from rfl, h, Int.toNat_natCast,
      Nat.and_pow_two_sub_one_eq_mod]
    exact Nat.mod_lt _ (Nat.two_pow_pos k)
  | negSucc m =>
    rw [land_negSucc_ofNat m (2 ^ k - 1), Int.toNat_natCast]
    have h1 : Nat.ldiff (2 ^ k - 1) m ≤ 2 ^ k - 1 := by
      apply Nat.le_of_testBit
      intro i hi
      rw [Nat.testBit_ldiff] at hi
      exact (Bool.and_eq_true_iff.mp hi).1
    have h2 : 0 < 2 ^ k := Nat.two_pow_pos k
    omega

/-- Bits at or above the width of a value are zero. -/
theorem testBit_high (w x i : Nat) (hx : x < 2 ^ w) (h : w ≤ i) :
    x.testBit i = false :=
  Nat.testBit_lt_two_pow (lt_of_lt_of_le hx (Nat.pow_le_pow_right (by norm_num) h))

/-- Bit `i` of the two-shift right-rotation body: bit `(i + b) % w` of the
operand, for a reduced amount `b < w`. -/
theorem rotr_body_testBit (w x b i : Nat) (hx : x < 2 ^ w) (hb : b < w) :
    (((x >>> b) ||| (x <<< (w - b))) % 2 ^ w).testBit i =
      (decide (i < w) && x.testBit ((i + b) % w)) := by
  rw [Nat.testBit_mod_two_pow, Nat.testBit_or, Nat.testBit_shiftRight, Nat.testBit_shiftLeft]
  by_cases hiw : i < w
  · by_cases hib : i + b < w
    · have h1 : (i + b) % w = i + b := Nat.mod_eq_of_lt hib
      have e2 : decide (i ≥ w - b) = false := decide_eq_false (by omega)
      rw [h1, decide_eq_true hiw, e2]
      simp only [Bool.true_and, Bool.false_and, Bool.or_false]
      rw [Nat.add_comm b i]
    · have h1 : (i + b) % w = i + b - w := by
        rw [Nat.mod_eq_sub_mod (by omega : i + b ≥ w)]
        exact Nat.mod_eq_of_lt (by omega)
      have e2 : decide (i ≥ w - b) = true := decide_eq_true (by omega)
      have e3 : x.testBit (b + i) = false := testBit_high w x (b + i) hx (by omega)
      have h4 : i - (w - b) = i + b - w := by omega
      rw [h1, decide_eq_true hiw, e2, e3, h4]
      simp only [Bool.true_and, Bool.false_or]
  · rw [decide_eq_false hiw]
    simp only [Bool.false_and]

/-- Bit `i` of the two-shift left-rotation body: bit `(i + (w - b)) % w` of
the operand, for a reduced amount `b < w`. -/
theorem rotl_body_testBit (w x b i : Nat) (hx : x < 2 ^ w) (hb : b < w) :
    (((x <<< b) ||| (x >>> (w - b))) % 2 ^ w).testBit i =
      (decide (i < w) && x.testBit ((i + (w - b)) % w)) := by
  rw [Nat.testBit_mod_two_pow, Nat.testBit_or, Nat.testBit_shiftLeft, Nat.testBit_shiftRight]
  by_cases hiw : i < w
  · by_cases hib : b ≤ i
    · have h1 : (i + (w - b)) % w = i - b := by
        rw [Nat.mod_eq_sub_mod (by omega : i + (w - b) ≥ w)]
        rw [show i + (w - b) - w = i - b from by omega]
        exact Nat.mod_eq_of_lt (by omega)
      have e2 : decide (i ≥ b) = true := decide_eq_true hib
      have e3 : x.testBit (w - b + i) = false := testBit_high w x (w - b + i) hx (by omega)
      rw [h1, decide_eq_true hiw, e2, e3]
      simp only [Bool.true_and, Bool.or_false]
    · have h1 : (i + (w - b)) % w = i + (w - b) := Nat.mod_eq_of_lt (by omega)
      have e2 : decide (i ≥ b) = false := decide_eq_false (by omega)
      rw [h1, decide_eq_true hiw, e2]
      simp only [Bool.true_and, Bool.false_and, Bool.false_or]
      rw [Nat.add_comm i (w - b)]
  · rw [decide_eq_false hiw]
    simp only [Bool.false_and]

/-- Rotating right then left by one reduced amount `b < w` is the identity
on `w`-bit values. -/
theorem rot_cancel_nat (w x b : Nat) (hx : x < 2 ^ w) (hb : b < w) :
    (((((x >>> b) ||| (x <<< (w - b))) % 2 ^ w) <<< b |||
        (((x >>> b) ||| (x <<< (w - b))) % 2 ^ w) >>> (w - b)) % 2 ^ w) = x := by
  have hw : 0 < w := by omega
  have hylt : ((x >>> b) ||| (x <<< (w - b))) % 2 ^ w < 2 ^ w :=
    Nat.mod_lt _ (Nat.two_pow_pos w)
  apply Nat.eq_of_testBit_eq
  intro i
  rw [rotl_body_testBit w _ b i hylt hb]
  by_cases hiw : i < w
  · have hj : (i + (w - b)) % w < w := Nat.mod_lt _ hw
    rw [rotr_body_testBit w x b _ hx hb]
    rw [decide_eq_true hiw, decide_eq_true hj, Bool.true_and, Bool.true_and]
    congr 1
    rw [Nat.mod_add_mod]
    rw [show i + (w - b) + b = i + w from by omega]
    rw [Nat.add_mod_right]
    exact Nat.mod_eq_of_lt hiw
  · rw [decide_eq_false hiw, Bool.false_and]
    exact (testBit_high w x i hx (by omega)).symm

/-- Claim C4: on a type of bit width `2 ^ k`, rotating right by `0` and by
the full bit width are both the identity. -/
theorem rotr_identity (k x : Nat) (hx : x < 2 ^ 2 ^ k) :
    rotr (2 ^ k) x 0 = x ∧ rotr (2 ^ k) x ((2 ^ k : Nat) : Int) = x := by
  have hzero : ∀ m : Int, (Int.land m ((2 ^ k - 1 : Nat) : Int)).toNat = 0 →
      rotr (2 ^ k) x m = x := by
    intro m hm
    unfold rotr
    rw [hm]
    apply Nat.eq_of_testBit_eq
    intro i
    rw [rotr_body_testBit (2 ^ k) x 0 i hx (Nat.two_pow_pos k)]
    by_cases hiw : i < 2 ^ k
    · rw [decide_eq_true hiw, Bool.true_and, Nat.add_zero, Nat.mod_eq_of_lt hiw]
    · rw [decide_eq_false hiw, Bool.false_and]
      exact (testBit_high (2 ^ k) x i hx (by omega)).symm
  constructor
  · apply hzero
    rw [show (0 : Int) = ((0 : Nat) : Int) from rfl, land_ofNat, Nat.zero_and]
    rfl
  · apply hzero
    rw [land_ofNat, Int.toNat_natCast, Nat.and_pow_two_sub_one_eq_mod, Nat.mod_self]

/-- Witness for C4 at `w = 2 ^ 3 = 8`, `x = 0xAB`. -/
theorem rotr_identity_witness : (0xAB : Nat) < 2 ^ 2 ^ 3 ∧ rotr (2 ^ 3) 0xAB 0 = 0xAB :=
  ⟨by decide, (rotr_identity 3 0xAB (by decide)).1⟩

/-- Claim C5: on a type of bit width `2 ^ k`, left rotation by `n` undoes
right rotation by `n`, for every operand and every `int` rotate amount,
negative and oversized amounts included. -/
theorem rotl_rotr_cancel (k x : Nat) (n : Int) (hx : x < 2 ^ 2 ^ k) :
    rotl (2 ^ k) (rotr (2 ^ k) x n) n = x := by
  unfold rotl rotr
  exact rot_cancel_nat (2 ^ k) x _ hx (land_mask_toNat_lt n k)

/-- Witness for C5 at `w = 2 ^ 5 = 32`, `x = 0x12345678`, `n = -7`. -/
theorem rotl_rotr_cancel_witness :
    (0x12345678 : Nat) < 2 ^ 2 ^ 5 ∧
    rotl (2 ^ 5) (rotr (2 ^ 5) 0x12345678 (-7)) (-7) = 0x12345678 :=
  ⟨by decide, rotl_rotr_cancel 5 0x12345678 (-7) (by decide)⟩

/-- The C++ cast `(s16)value` always lands in the `s16` range. -/
theorem wrapS16_bounds (i : Int) : -32768 ≤ wrapS16 i ∧ wrapS16 i < 32768 := by
  unfold wrapS16
  rw [show ((2 ^ 16 : Nat) : Int) = 65536 from by norm_num,
    show ((2 ^ 15 : Nat) : Int) = 32768 from by norm_num]
  refine ⟨?_, ?_⟩ <;> split <;> omega

/-- Reduction to a signed 32-bit value is the identity on values already in
the `s32` range. -/
theorem wrapS32_eq_self (i : Int) (h1 : -2147483648 ≤ i) (h2 : i < 2147483648) :
    wrapS32 i = i := by
  unfold wrapS32
  rw [show ((2 ^ 32 : Nat) : Int) = 4294967296 from by norm_num,
    show ((2 ^ 31 : Nat) : Int) = 2147483648 from by norm_num]
  split <;> omega

/-- `signExtend16` never sign-extends: because the `s16` intermediate is
promoted to the 32-bit `int` before the shifts, the left shift loses no bit
and the arithmetic right shift undoes it exactly, so the function returns
its input truncated to 16 bits, for every starting size. -/
theorem signExtend16_eq_mod (v s : Nat) : signExtend16 v s = v % 2 ^ 16 := by
  have hB1 : ((2 ^ (16 - s) : Nat) : Int) ≤ 65536 := by
    have h := Nat.pow_le_pow_right (by norm_num : 0 < 2) (by omega : 16 - s ≤ 16)
    calc ((2 ^ (16 - s) : Nat) : Int) ≤ ((2 ^ 16 : Nat) : Int) := by exact_mod_cast h
      _ = 65536 := by norm_num
  have hB0 : (0 : Int) < ((2 ^ (16 - s) : Nat) : Int) := by
    exact_mod_cast Nat.two_pow_pos (16 - s)
  obtain ⟨hlo, hhi⟩ := wrapS16_bounds (v : Int)
  have hup : wrapS16 (v : Int) * ((2 ^ (16 - s) : Nat) : Int) < 2147483648 := by
    have h3 : wrapS16 (v : Int) * ((2 ^ (16 - s) : Nat) : Int) ≤ 32767 * 65536 :=
      mul_le_mul (by omega) hB1 (le_of_lt hB0) (by norm_num)
    omega
  have hlow : -2147483648 ≤ wrapS16 (v : Int) * ((2 ^ (16 - s) : Nat) : Int) := by
    have h3 : (-32768 : Int) * 65536 ≤ (-32768) * ((2 ^ (16 - s) : Nat) : Int) :=
      mul_le_mul_of_nonpos_left hB1 (by norm_num)
    have h4 : (-32768 : Int) * ((2 ^ (16 - s) : Nat) : Int) ≤
        wrapS16 (v : Int) * ((2 ^ (16 - s) : Nat) : Int) :=
      mul_le_mul_of_nonneg_right hlo (le_of_lt hB0)
    omega
  simp only [signExtend16]
  rw [wrapS32_eq_self _ hlow hup, Int.shiftRight_eq_div_pow,
    Int.mul_ediv_cancel _ (ne_of_gt hB0)]
  unfold toU16 wrapS16
  rw [show ((2 ^ 16 : Nat) : Int) = 65536 from by norm_num,
    show ((2 ^ 15 : Nat) : Int) = 32768 from by norm_num,
    show (2 : Nat) ^ 16 = 65536 from by norm_num]
  split <;> omega

/-- Claim C3 is refuted by the code: `signExtend16 0xFF 8` evaluates to
`0x00FF`, not the `0xFFFF` required for two's-complement sign extension from
8 bits (C++ integral promotion keeps the intermediate in a 32-bit `int`, so
the sign bit of the 16-bit lane never reaches the top bit).  The 32-bit
variant does behave as claimed on the stated examples. -/
theorem signExtend16_promotion_bug :
    signExtend16 0xFF 8 = 0x00FF ∧ signExtend16 0xFF 8 ≠ 0xFFFF ∧
    signExtend32 1 1 = 0xFFFFFFFF ∧ signExtend32 1 2 = 1 := by
  refine ⟨?_, ?_, ?_, ?_⟩ <;> decide

/-- The call sequence of `static_for` is the ascending range `[b, e)`. -/
theorem static_for_eq_range (b e : Nat) : static_for b e = List.range' b (e - b) := by
  unfold static_for static_for_impl
  exact (List.range'_eq_map_range b (e - b)).symm

/-- Claim C7: `static_for<T, Begin, End>` invokes its callback exactly once
for each integer in `[Begin, End)`, in strictly ascending order, the `i`-th
invocation receiving `Begin + i`; `Begin = End` gives zero invocations. -/
theorem static_for_spec (b e : Nat) (h : b ≤ e) :
    (∀ x, (static_for b e).count x = if b ≤ x ∧ x < e then 1 else 0) ∧
    List.Pairwise (· < ·) (static_for b e) ∧
    (static_for b e).length = e - b ∧
    (∀ i, i < e - b → (static_for b e).getD i 0 = b + i) ∧
    (b = e → static_for b e = []) := by
  rw [static_for_eq_range]
  refine ⟨?_, List.pairwise_lt_range' b (e - b), List.length_range' b 1 (e - b), ?_, ?_⟩
  · intro x
    rw [List.count_eq_of_nodup (List.nodup_range' b (e - b))]
    by_cases hx : b ≤ x ∧ x < e
    · rw [if_pos hx, if_pos (List.mem_range'_1.mpr ⟨hx.1, by omega⟩)]
    · rw [if_neg hx, if_neg]
      intro hmem
      have hm := List.mem_range'_1.mp hmem
      exact hx ⟨hm.1, by omega⟩
  · intro i hi
    rw [List.getD_eq_getElem?_getD, List.getElem?_range' b 1 hi, Option.getD_some,
      Nat.one_mul]
  · intro hbe
    rw [hbe, Nat.sub_self]
    rfl

/-- Witness for C7 at `Begin = 0`, `End = 5`. -/
theorem static_for_spec_witness : 0 ≤ 5 ∧ (static_for 0 5).length = 5 - 0 :=
  ⟨by decide, (static_for_spec 0 5 (by decide)).2.2.1⟩

end Helpers
